import Mathlib

/-!
Verification development for the 3D Material Point Method solver implemented in
`src/simulation3d/mpm/mpm3.cpp`.

The grid/transfer layer (kernel functions, rasterize, resample, deformation-force
accumulation, boundary conditions, substep orchestrator, particle seeding) is embedded
generically over a linear ordered field `K`, so that concrete evaluations can run over `ℚ`
while the statements hold in particular over `ℝ`.  The two constitutive material models
(the elastoplastic "EP" variant and the Drucker-Prager-like "DP" variant) are embedded
over `ℝ`, since they use `exp`, `log`, `sqrt` and `sin`.

External collaborators that the core calls but whose code is not part of the visible
source (the SVD routine of `qr_svd.h`, the level-set boundary provider, the texture
sampler and random jitter used for seeding, the square-root primitive used by
`glm::length/normalize`, and the per-particle collision resolver) are passed in as
explicit parameters, mirroring the call boundaries of the C++ code.
-/

set_option maxHeartbeats 1000000
set_option linter.unusedSectionVars false

namespace MPM3

variable {K : Type} [LinearOrderedField K]

/-- Cubic B-spline kernel `w` of mpm3.cpp (lines 21-29).  The source first replaces `x`
by `abs(x)` and then branches on `x < 1`; the caller contract (`assert(x <= 2)`) restricts
the domain to `|x| ≤ 2`. -/
def w (x : K) : K :=
  if |x| < 1 then
    0.5 * |x| ^ 3 - |x| ^ 2 + 2 / 3
  else
    -(1 / 6) * |x| ^ 3 + |x| ^ 2 - 2 * |x| + 4 / 3

/-- Kernel derivative `dw` of mpm3.cpp (lines 32-44): the sign `s` is split off, the
polynomial piece is evaluated at `|x|`, and the result is `s * val`. -/
def dw (x : K) : K :=
  (if x < 0 then -1 else 1) *
    (if |x| < 1 then 1.5 * |x| ^ 2 - 2 * |x| else -0.5 * |x| ^ 2 + 2 * |x| - 2)

/-- 3D vectors, mirroring `Vector3`. -/
abbrev Vec3 (K : Type) := Fin 3 → K

/-- 3×3 matrices, mirroring `Matrix3`. -/
abbrev Mat3 (K : Type) := Matrix (Fin 3) (Fin 3) K

/-- Separable 3D kernel weight `w(a.x) * w(a.y) * w(a.z)` (mpm3.cpp lines 46-48). -/
def w3 (a : Vec3 K) : K := w (a 0) * w (a 1) * w (a 2)

/-- Separable 3D kernel gradient (mpm3.cpp lines 50-52). -/
def dw3 (a : Vec3 K) : Vec3 K :=
  ![dw (a 0) * w (a 1) * w (a 2), w (a 0) * dw (a 1) * w (a 2), w (a 0) * w (a 1) * dw (a 2)]

/-- `clamp` of the taichi math utilities: clamp `x` into `[lo, hi]`. -/
def clampK (x lo hi : K) : K := min (max x lo) hi

/-- Material-specific scalar state, a closed tagged variant over the two particle kinds
(`EPParticle3` with hardening, Lamé moduli and yield thresholds; `DPParticle3` with the
hardening curve coefficients, Lamé moduli, yield slope `alpha` and accumulated plastic
strain `q`). -/
inductive MatState (K : Type) where
  | ep (hardening mu_0 lambda_0 theta_c theta_s : K)
  | dp (h_0 h_1 h_2 h_3 lambda_0 mu_0 alpha q : K)

/-- `MPM3D::Particle` state: position, velocity, mass, elastic/plastic deformation
gradients, per-substep scratch (`dg_cache`, `apic_b`, `tmp_force`) and the
material-specific state. -/
structure Particle (K : Type) where
  pos : Vec3 K
  v : Vec3 K
  mass : K
  dg_e : Mat3 K
  dg_p : Mat3 K
  dg_cache : Mat3 K
  apic_b : Mat3 K
  tmp_force : Mat3 K
  mat : MatState K

/-- Integer grid cell coordinates `(i, j, k)`. -/
abbrev Idx := ℤ × ℤ × ℤ

/-- Simulation state of `MPM3D`: the particle collection, the dense grids (as functions
on cell coordinates; cells outside the domain hold the neutral value), and the simulation
clock `current_t`.  The per-cell locks only serialize concurrent accumulation and have no
observable effect on the summed result, so they do not appear in the state. -/
structure SimState (K : Type) where
  particles : List (Particle K)
  grid_velocity : Idx → Vec3 K
  grid_velocity_backup : Idx → Vec3 K
  grid_mass : Idx → K
  current_t : K

/-- External collaborators consumed by the core, passed in where the C++ code calls out
of the visible source: the virtual per-particle material operations (`calculate_force`,
`plasticity`, dispatched through `Particle*`), the particle collision resolver, the
time-varying level-set boundary provider (sample / spatial gradient / temporal derivative
/ friction), the square-root primitive used by `glm::length`/`glm::normalize`, and the
global `eps` constant used when clamping advected positions. -/
structure Env (K : Type) where
  calculateForceF : Particle K → Mat3 K
  plasticityF : Particle K → Particle K
  resolveCollisionF : Particle K → K → Particle K
  lsSample : Vec3 K → K → K
  lsGrad : Vec3 K → K → Vec3 K
  lsTemporalDeriv : Vec3 K → K → K
  lsFriction : K
  sqrtF : K → K
  epsV : K

variable [FloorRing K]

/-- One axis of the bounded rasterization region: the integer window
`[⌊x⌋ - 1, ⌊x⌋ + 3)` clipped to the grid domain `[0, r)`. -/
def axisRange (r : ℤ) (x : K) : Finset ℤ :=
  Finset.Ico (max 0 (⌊x⌋ - 1)) (min r (⌊x⌋ + 3))

/-- Modelled from the spec: `get_bounded_rasterization_region` is declared in `mpm3.h`,
which is not part of the visible source.  The spec fixes it to the 4×4×4 block of cells
whose centers lie within distance 2 of the particle along each axis (the four integers
`⌊x⌋ - 1 .. ⌊x⌋ + 2` per axis), clipped to the grid domain `[0, res)`. -/
def region (res : Idx) (pos : Vec3 K) : Finset Idx :=
  axisRange res.1 (pos 0) ×ˢ (axisRange res.2.1 (pos 1) ×ˢ axisRange res.2.2 (pos 2))

/-- The grid domain: all cells `(i, j, k)` with `0 ≤ i < res`. -/
def domainCells (res : Idx) : Finset Idx :=
  Finset.Ico 0 res.1 ×ˢ (Finset.Ico 0 res.2.1 ×ˢ Finset.Ico 0 res.2.2)

/-- The cell coordinate as a real vector, `Vector3(ind.i, ind.j, ind.k)`. -/
def idxVec (ind : Idx) : Vec3 K := ![(ind.1 : K), (ind.2.1 : K), (ind.2.2 : K)]

/-- The grid mass accumulated by `MPM3D::rasterize` (mpm3.cpp lines 263-272): for every
particle and every cell of its bounded region, `weight * mass` is added under the cell
lock; the lock only orders the accumulation, so the result is the sum. -/
def rasterizeMass (res : Idx) (s : SimState K) : Idx → K := fun ind =>
  (s.particles.map fun p =>
    if ind ∈ region res p.pos then w3 (idxVec ind - p.pos) * p.mass else 0).sum

/-- The grid momentum accumulated by `MPM3D::rasterize`:
`weight * mass * (v + 3 * apic_b * d_pos)` summed over the contributing particles. -/
def rasterizeMomentum (res : Idx) (s : SimState K) : Idx → Vec3 K := fun ind =>
  (s.particles.map fun p =>
    if ind ∈ region res p.pos then
      (w3 (idxVec ind - p.pos) * p.mass) •
        (p.v + (3 : K) • (p.apic_b).mulVec (idxVec ind - p.pos))
    else 0).sum

/-- `MPM3D::rasterize` (mpm3.cpp lines 260-281): zero the grid, accumulate mass and
momentum, then normalize (`velocity *= 1/mass`) exactly the cells of positive mass. -/
def rasterize (res : Idx) (s : SimState K) : SimState K :=
  { s with
    grid_mass := rasterizeMass res s
    grid_velocity := fun ind =>
      if 0 < rasterizeMass res s ind then
        (1 / rasterizeMass res s ind) • rasterizeMomentum res s ind
      else rasterizeMomentum res s ind }

/-- Modelled from the spec: `grid_backup_velocity` is declared in `mpm3.h`, not in the
visible source; the spec describes it as a snapshot of the grid velocity taken right
after mass-normalization. -/
def gridBackupVelocity (s : SimState K) : SimState K :=
  { s with grid_velocity_backup := s.grid_velocity }

/-- Modelled from the spec: `grid_apply_external_force` is declared in `mpm3.h`, not in
the visible source; the spec describes it as applying the gravity impulse
`gravity * delta_t`, with cells of zero mass keeping their zero velocity. -/
def gridApplyExternalForce (g : Vec3 K) (dt : K) (s : SimState K) : SimState K :=
  { s with
    grid_velocity := fun ind =>
      if 0 < s.grid_mass ind then s.grid_velocity ind + dt • g else s.grid_velocity ind }

/-- `MPM3D::apply_deformation_force` (mpm3.cpp lines 322-343): first pass stores
`calculate_force` output in each particle's `tmp_force`; second pass adds
`delta_t / mass * (tmp_force * dw(d_pos))` into each cell of the particle's region,
skipping cells whose mass is zero (`if (mass == 0.0f) continue`, "No EPS here"). -/
def applyDeformationForce (res : Idx) (env : Env K) (dt : K) (s : SimState K) :
    SimState K :=
  let parts := s.particles.map fun p => { p with tmp_force := env.calculateForceF p }
  { s with
    particles := parts
    grid_velocity := fun ind =>
      s.grid_velocity ind +
        (parts.map fun p =>
          if ind ∈ region res p.pos then
            if s.grid_mass ind = 0 then 0
            else (dt / s.grid_mass ind) • (p.tmp_force).mulVec (dw3 (p.pos - idxVec ind))
          else 0).sum }

/-- Grid-interpolated velocity at a particle position: the `v` accumulator of
`MPM3D::resample` (mpm3.cpp lines 288-309). -/
def interpVel (res : Idx) (s : SimState K) (pos : Vec3 K) : Vec3 K :=
  ∑ ind ∈ region res pos, w3 (pos - idxVec ind) • s.grid_velocity ind

/-- Grid-interpolated backed-up velocity at a particle position: the `bv` accumulator of
`MPM3D::resample`. -/
def interpVelBackup (res : Idx) (s : SimState K) (pos : Vec3 K) : Vec3 K :=
  ∑ ind ∈ region res pos, w3 (pos - idxVec ind) • s.grid_velocity_backup ind

/-- The APIC `b` accumulator of `MPM3D::resample`: weighted outer products of cell
velocity with the negated offset. -/
def apicAccum (res : Idx) (s : SimState K) (pos : Vec3 K) : Mat3 K :=
  ∑ ind ∈ region res pos,
    w3 (pos - idxVec ind) • Matrix.vecMulVec (s.grid_velocity ind) (-(pos - idxVec ind))

/-- The velocity-gradient accumulator `cdg` of `MPM3D::resample` (before the
`I + delta_t * cdg` update): outer products of cell velocity with the kernel gradient. -/
def cdgAccum (res : Idx) (s : SimState K) (pos : Vec3 K) : Mat3 K :=
  ∑ ind ∈ region res pos,
    Matrix.vecMulVec (s.grid_velocity ind) (dw3 (pos - idxVec ind))

/-- The per-particle body of `MPM3D::resample` (mpm3.cpp lines 283-320): accumulate
`v`, `b`, `bv`, `cdg` and the cell count over the bounded region; zero `b` unless the
region contained exactly 64 cells and APIC is enabled; blend the particle velocity with
`alpha_delta_t` (0 for APIC, 1 otherwise); update `dg_e` and `dg_cache`. -/
def resampleParticle (res : Idx) (apic : Bool) (dt : K) (s : SimState K)
    (p : Particle K) : Particle K :=
  let alpha_dt : K := if apic then 0 else 1
  let count := (region res p.pos).card
  let v := interpVel res s p.pos
  let bv := interpVelBackup res s p.pos
  let b := if count ≠ 64 ∨ apic = false then 0 else apicAccum res s p.pos
  let cdg : Mat3 K := 1 + dt • cdgAccum res s p.pos
  let dg := cdg * p.dg_e * p.dg_p
  { p with
    apic_b := b
    v := (1 - alpha_dt) • v + alpha_dt • (v - bv + p.v)
    dg_e := cdg * p.dg_e
    dg_cache := dg }

/-- `MPM3D::resample`: the per-particle update mapped over the particle collection. -/
def resample (res : Idx) (apic : Bool) (dt : K) (s : SimState K) : SimState K :=
  { s with particles := s.particles.map (resampleParticle res apic dt s) }

/-- `glm::dot` on 3D vectors. -/
def dot3 (a b : Vec3 K) : K := a 0 * b 0 + a 1 * b 1 + a 2 * b 2

/-- `MPM3D::grid_apply_boundary_conditions` (mpm3.cpp lines 345-372), for every domain
cell: skip cells with signed distance `phi > 1`; otherwise subtract the boundary velocity,
apply the sticky / Coulomb-friction / penetration response, and add the boundary velocity
back.  `glm::length`/`glm::normalize` are expressed through the external square-root
primitive `env.sqrtF`. -/
def gridApplyBoundaryConditions (res : Idx) (env : Env K) (t : K) (s : SimState K) :
    SimState K :=
  { s with
    grid_velocity := fun ind =>
      if ind ∈ domainCells res then
        let pos : Vec3 K := idxVec ind
        let phi := env.lsSample pos t
        if 1 < phi then s.grid_velocity ind
        else
          let n := env.lsGrad pos t
          let boundary_velocity := env.lsTemporalDeriv pos t • n
          let v0 := s.grid_velocity ind - boundary_velocity
          let v1 :=
            if 0 < phi then
              let pressure := max (-(dot3 v0 n)) 0
              let mu := env.lsFriction
              if mu < 0 then 0
              else
                let t0 := v0 - dot3 v0 n • n
                let tv :=
                  if (1e-6 : K) < env.sqrtF (dot3 t0 t0) then
                    (1 / env.sqrtF (dot3 t0 t0)) • t0
                  else t0
                let friction := -(clampK (dot3 tv v0) (-(mu * pressure)) (mu * pressure))
                v0 + pressure • n + friction • tv
            else 0
          v1 + boundary_velocity
      else s.grid_velocity ind }

/-- `MPM3D::particle_collision_resolution` (mpm3.cpp lines 374-378): each particle's
collision resolver is invoked at the current time. -/
def particleCollisionResolution (env : Env K) (t : K) (s : SimState K) : SimState K :=
  { s with particles := s.particles.map fun p => env.resolveCollisionF p t }

/-- The advection + plasticity pass of `MPM3D::substep` (mpm3.cpp lines 394-400):
`pos += delta_t * v`, each coordinate clamped into `[0, res - eps]`, followed by the
material's `plasticity`. -/
def advectAndPlasticity (res : Idx) (env : Env K) (dt : K) (s : SimState K) :
    SimState K :=
  { s with
    particles := s.particles.map fun p =>
      let pos1 := p.pos + dt • p.v
      env.plasticityF
        { p with
          pos := ![clampK (pos1 0) 0 ((res.1 : K) - env.epsV),
                   clampK (pos1 1) 0 ((res.2.1 : K) - env.epsV),
                   clampK (pos1 2) 0 ((res.2.2 : K) - env.epsV)] } }

/-- `MPM3D::substep` (mpm3.cpp lines 380-404): when the particle collection is nonempty,
run rasterize → backup grid velocity → external (gravity) force → deformation force →
grid boundary conditions → resample → advection/plasticity → particle collision
resolution; in every case advance `current_t` by `delta_t`. -/
def substep (res : Idx) (env : Env K) (gravity : Vec3 K) (apic : Bool)
    (s : SimState K) (dt : K) : SimState K :=
  let s' :=
    if s.particles.isEmpty then s
    else
      particleCollisionResolution env s.current_t
        (advectAndPlasticity res env dt
          (resample res apic dt
            (gridApplyBoundaryConditions res env s.current_t
              (applyDeformationForce res env dt
                (gridApplyExternalForce gravity dt
                  (gridBackupVelocity
                    (rasterize res s)))))))
  { s' with current_t := s'.current_t + dt }

/-- The recognized configuration surface consumed by `MPM3D::add_particles` and the two
particle initializers (`EPParticle3::initialize`, `DPParticle3::initialize`): each option
is optional, with the code's defaults applied via `Config::get(key, default)`. -/
structure Config (K : Type) where
  ptype : Option String
  hardening : Option K
  lambda_0 : Option K
  mu_0 : Option K
  theta_c : Option K
  theta_s : Option K
  h_0 : Option K
  h_1 : Option K
  h_2 : Option K
  h_3 : Option K
  alpha : Option K
  compression : Option K
  initial_velocity : Option (Vec3 K)

/-- Modelled from the spec: the `MPM3D::Particle` base constructor lives in `mpm3.h`,
not in the visible source; the spec fixes the initial state to identity deformation
gradients, zero velocity and zero scratch matrices. -/
def defaultParticle : Particle K :=
  { pos := 0, v := 0, mass := 0, dg_e := 1, dg_p := 1, dg_cache := 1,
    apic_b := 0, tmp_force := 0,
    mat := .ep 10 1e5 1e5 (25e-3) (75e-4) }

/-- `EPParticle3::initialize` (mpm3.cpp lines 64-72): read the EP material parameters
with their defaults and set `dg_p = compression * I`. -/
def epInitialize (c : Config K) (p : Particle K) : Particle K :=
  { p with
    mat := .ep (c.hardening.getD 10) (c.mu_0.getD 1e5) (c.lambda_0.getD 1e5)
      (c.theta_c.getD (25e-3)) (c.theta_s.getD (75e-4))
    dg_p := (c.compression.getD 1) • (1 : Mat3 K) }

/-- `DPParticle3::initialize` (mpm3.cpp lines 124-134): read the DP material parameters
with their defaults and set `dg_p = compression * I`. -/
def dpInitialize (c : Config K) (p : Particle K) : Particle K :=
  { p with
    mat := .dp (c.h_0.getD 35) (c.h_1.getD 9) (c.h_2.getD (2e-1)) (c.h_3.getD 10)
      (c.lambda_0.getD 204057) (c.mu_0.getD 136038) (c.alpha.getD 1) 0
    dg_p := (c.compression.getD 1) • (1 : Mat3 K) }

/-- One particle created by `MPM3D::add_particles` (mpm3.cpp lines 228-241): an EP or DP
particle depending on `config.get("type", "ep")`, initialized from the configuration,
placed at the jittered position, given mass exactly `1.0f`, and given the configured
initial velocity (defaulting to its current velocity). -/
def newParticle (c : Config K) (pos0 : Vec3 K) : Particle K :=
  let p0 :=
    if c.ptype.getD "ep" = "ep" then epInitialize c (defaultParticle : Particle K)
    else dpInitialize c (defaultParticle : Particle K)
  { p0 with pos := pos0, mass := 1, v := c.initial_velocity.getD p0.v }

/-- Modelled from the spec: the density texture and the `rand()` jitter of
`MPM3D::add_particles` are external; `counts ind` stands for the stochastically rounded
particle count sampled for cell `ind`, and `posOf ind l` for the jittered position of the
`l`-th particle of that cell.  This is the list of particles the call appends. -/
def newParticleList (res : Idx) (c : Config K) (counts : Idx → ℕ)
    (posOf : Idx → ℕ → Vec3 K) : List (Particle K) :=
  (List.range res.1.toNat).flatMap fun i =>
    (List.range res.2.1.toNat).flatMap fun j =>
      (List.range res.2.2.toNat).flatMap fun k =>
        (List.range (counts ((i : ℤ), (j : ℤ), (k : ℤ)))).map fun l =>
          newParticle c (posOf ((i : ℤ), (j : ℤ), (k : ℤ)) l)

/-- `MPM3D::add_particles` (mpm3.cpp lines 220-246): the created particles are appended
to the existing particle collection. -/
def addParticles (res : Idx) (c : Config K) (counts : Idx → ℕ)
    (posOf : Idx → ℕ → Vec3 K) (s : SimState K) : SimState K :=
  { s with particles := s.particles ++ newParticleList res c counts posOf }

/-- Total grid mass: the sum of `grid_mass` over all cells of the domain. -/
def totalGridMass (res : Idx) (s : SimState K) : K :=
  ∑ ind ∈ domainCells res, s.grid_mass ind

/-- The mass-weighted kernel sum a particle scatters onto its (clipped) bounded region. -/
def regionWeightSum (res : Idx) (pos : Vec3 K) : K :=
  ∑ ind ∈ region res pos, w3 (idxVec ind - pos)

/-- Whether the 4×4×4 bounded rasterization window of `pos` lies fully inside the grid
domain (no boundary clipping on any axis). -/
def regionFull (res : Idx) (pos : Vec3 K) : Prop :=
  (0 ≤ ⌊pos 0⌋ - 1 ∧ ⌊pos 0⌋ + 3 ≤ res.1) ∧
  (0 ≤ ⌊pos 1⌋ - 1 ∧ ⌊pos 1⌋ + 3 ≤ res.2.1) ∧
  (0 ≤ ⌊pos 2⌋ - 1 ∧ ⌊pos 2⌋ + 3 ≤ res.2.2)

instance (res : Idx) (pos : Vec3 K) : Decidable (regionFull res pos) := by
  unfold regionFull
  infer_instance

/-- A concrete EP particle of mass 1 sitting at position `(2, 2, 2)`, used for the
concrete evaluations below. -/
def testParticleQ : Particle ℚ :=
  { pos := fun _ => 2, v := 0, mass := 1, dg_e := 1, dg_p := 1, dg_cache := 1,
    apic_b := 0, tmp_force := 0, mat := .ep 10 1e5 1e5 (25e-3) (75e-4) }

/-- A concrete simulation state holding exactly `testParticleQ` on a fresh grid. -/
def testStateQ : SimState ℚ :=
  { particles := [testParticleQ], grid_velocity := fun _ => 0,
    grid_velocity_backup := fun _ => 0, grid_mass := fun _ => 0, current_t := 0 }

/-- A concrete simulation state with no particles. -/
def emptyStateQ : SimState ℚ :=
  { particles := [], grid_velocity := fun _ => 0,
    grid_velocity_backup := fun _ => 0, grid_mass := fun _ => 0, current_t := 0 }

/-- A concrete environment over `ℚ` (trivial external collaborators). -/
def envQ : Env ℚ :=
  { calculateForceF := fun _ => 0, plasticityF := id, resolveCollisionF := fun p _ => p,
    lsSample := fun _ _ => 2, lsGrad := fun _ _ => 0, lsTemporalDeriv := fun _ _ => 0,
    lsFriction := 0, sqrtF := fun _ => 0, epsV := 0 }

/-- A concrete configuration with no recognized option set (all defaults apply). -/
def configQ : Config ℚ :=
  { ptype := none, hardening := none, lambda_0 := none, mu_0 := none, theta_c := none,
    theta_s := none, h_0 := none, h_1 := none, h_2 := none, h_3 := none, alpha := none,
    compression := none, initial_velocity := none }

/-- `glm::inverse` of a 3×3 matrix: adjugate over determinant (equal to Mathlib's
nonsingular inverse over a field). -/
def mInv (m : Mat3 K) : Mat3 K := (m.det)⁻¹ • m.adjugate

/-- The diagonal clamp of the plasticity routines: `for i: sig[i][i] = clamp(...)`,
leaving off-diagonal entries untouched. -/
def clampDiag (m : Mat3 K) (lo hi : K) : Mat3 K :=
  Matrix.of fun i j => if i = j then clampK (m i j) lo hi else m i j

/-- `EPParticle3::plasticity` (mpm3.cpp lines 99-112), with the external SVD routine of
`qr_svd.h` passed in as `svdF` (returning `(U, Σ, V)` with `M = U * Σ * Vᵀ`): clamp the
singular values of `dg_e` into `[1 - theta_c, 1 + theta_s]` and reconstruct; recover
`dg_p = inverse(dg_e) * dg_cache`; clamp its singular values into `[0.1, 10]` and
reconstruct.  Returns the new `(dg_e, dg_p)`. -/
def EPplasticity (svdF : Mat3 K → Mat3 K × Mat3 K × Mat3 K) (theta_c theta_s : K)
    (dg_e dg_cache : Mat3 K) : Mat3 K × Mat3 K :=
  let r1 := svdF dg_e
  let sig1 := clampDiag r1.2.1 (1 - theta_c) (1 + theta_s)
  let dg_e2 := r1.1 * sig1 * r1.2.2.transpose
  let dg_p2 := mInv dg_e2 * dg_cache
  let r2 := svdF dg_p2
  let sig2 := clampDiag r2.2.1 (1e-1 : K) 10
  (dg_e2, r2.1 * sig2 * r2.2.2.transpose)

/-- The diagonal log matrix `epsilon` of `DPParticle3::project` (mpm3.cpp line 142). -/
noncomputable def dpLogSig (sigma : Mat3 ℝ) : Mat3 ℝ :=
  Matrix.diagonal ![Real.log (sigma 0 0), Real.log (sigma 1 1), Real.log (sigma 2 2)]

/-- The trace `tr` of `DPParticle3::project` (mpm3.cpp line 143), read off the diagonal. -/
def dpTrace (e : Mat3 ℝ) : ℝ := e 0 0 + e 1 1 + e 2 2

/-- The deviator `epsilon_hat = epsilon - tr/d * I` of `DPParticle3::project`
(mpm3.cpp line 144), with `d = 3`. -/
noncomputable def dpDeviator (e : Mat3 ℝ) : Mat3 ℝ := e - (dpTrace e / 3) • (1 : Mat3 ℝ)

/-- The diagonal Frobenius norm `sqrt(e00² + e11² + e22²)` used for both `epsilon_for`
and `epsilon_hat_for` in `DPParticle3::project` (mpm3.cpp lines 145-148). -/
noncomputable def dpDiagNorm (e : Mat3 ℝ) : ℝ :=
  Real.sqrt ((e 0 0) ^ 2 + (e 1 1) ^ 2 + (e 2 2) ^ 2)

/-- The incremental plastic multiplier candidate `delta_gamma` of `DPParticle3::project`
(mpm3.cpp line 153). -/
noncomputable def dpDeltaGamma (sigma : Mat3 ℝ) (alpha lambda_0 mu_0 : ℝ) : ℝ :=
  dpDiagNorm (dpDeviator (dpLogSig sigma)) +
    (3 * lambda_0 + 2 * mu_0) / (2 * mu_0) * dpTrace (dpLogSig sigma) * alpha

/-- `DPParticle3::project` (mpm3.cpp lines 140-163): three branches over
`epsilon = log(sigma)` — degenerate deviator or positive trace projects to the identity
with multiplier `‖epsilon‖`; non-positive `delta_gamma` keeps `sigma` with multiplier 0;
otherwise subtract the scaled deviator, exponentiate back, and return `delta_gamma`. -/
noncomputable def DPproject (sigma : Mat3 ℝ) (alpha lambda_0 mu_0 : ℝ) : Mat3 ℝ × ℝ :=
  let epsilon := dpLogSig sigma
  let epsilon_hat := dpDeviator epsilon
  if dpDiagNorm epsilon_hat ≤ 0 ∨ 0 < dpTrace epsilon then (1, dpDiagNorm epsilon)
  else if dpDeltaGamma sigma alpha lambda_0 mu_0 ≤ 0 then (sigma, 0)
  else
    let h := epsilon -
      (dpDeltaGamma sigma alpha lambda_0 mu_0 / dpDiagNorm epsilon_hat) • epsilon_hat
    (Matrix.diagonal ![Real.exp (h 0 0), Real.exp (h 1 1), Real.exp (h 2 2)],
      dpDeltaGamma sigma alpha lambda_0 mu_0)

/-- The Frobenius norm of the taichi math utilities (declared outside the visible
source): square root of the sum of squared entries. -/
noncomputable def frobNorm (m : Mat3 ℝ) : ℝ := Real.sqrt (∑ i, ∑ j, (m i j) ^ 2)

/-- `DPParticle3::calculate_force` (mpm3.cpp lines 168-182), with the external SVD
passed in as `svdF`: fatally traps (`assert_info`) on any non-positive singular value,
modelled by `none`; otherwise returns the Hencky-elasticity force
`-vol * (U * center * Vᵀ) * dg_eᵀ`. -/
noncomputable def DPcalculateForce (svdF : Mat3 ℝ → Mat3 ℝ × Mat3 ℝ × Mat3 ℝ)
    (mu_0 lambda_0 vol : ℝ) (dg_e : Mat3 ℝ) : Option (Mat3 ℝ) :=
  let r := svdF dg_e
  let sig := r.2.1
  if 0 < sig 0 0 ∧ 0 < sig 1 1 ∧ 0 < sig 2 2 then
    let log_sig : Mat3 ℝ :=
      Matrix.diagonal ![Real.log (sig 0 0), Real.log (sig 1 1), Real.log (sig 2 2)]
    let inv_sig : Mat3 ℝ :=
      Matrix.diagonal ![1 / sig 0 0, 1 / sig 1 1, 1 / sig 2 2]
    let center := (2 * mu_0) • (inv_sig * log_sig) +
      (lambda_0 * (log_sig 0 0 + log_sig 1 1 + log_sig 2 2)) • inv_sig
    some ((-vol) • ((r.1 * center * r.2.2.transpose) * dg_e.transpose))
  else none

/-- `DPParticle3::plasticity` (mpm3.cpp lines 184-206), with the external SVD passed in
as `svdF`: SVD of `dg_e`, yield projection, fatal trap (`error("SVD error")`, modelled by
`none`) when the SVD reconstruction residual has Frobenius norm not below `1e-4`;
otherwise reconstruct `dg_e` from the projected singular values, fold the correction into
`dg_p`, accumulate `q`, and update `alpha` along the friction-angle hardening curve.
Returns the new `(dg_e, dg_p, q, alpha)`. -/
noncomputable def DPplasticity (svdF : Mat3 ℝ → Mat3 ℝ × Mat3 ℝ × Mat3 ℝ)
    (h_0 h_1 h_2 h_3 lambda_0 mu_0 : ℝ) (dg_e dg_p : Mat3 ℝ) (q alpha : ℝ) :
    Option (Mat3 ℝ × Mat3 ℝ × ℝ × ℝ) :=
  let r := svdF dg_e
  let u := r.1
  let sig := r.2.1
  let v := r.2.2
  let pr := DPproject sig alpha lambda_0 mu_0
  let rec_m := u * sig * v.transpose
  if frobNorm (rec_m - dg_e) < 1e-4 then
    let dg_e2 := u * pr.1 * v.transpose
    let dg_p2 := v * mInv pr.1 * sig * v.transpose * dg_p
    let q2 := q + pr.2
    let phi := h_0 + (h_1 * q2 - h_3) * Real.exp (-h_2 * q2)
    let alpha2 := Real.sqrt (2 / 3) * (2 * Real.sin (phi * Real.pi / 180)) /
      (3 - Real.sin (phi * Real.pi / 180))
    some (dg_e2, dg_p2, q2, alpha2)
  else none

theorem w_zero : (w (0 : K)) = 2 / 3 := by
  simp [w]

theorem w_two : (w (2 : K)) = 0 := by
  have h2 : ¬(|(2 : K)| < 1) := by
    rw [abs_of_nonneg (by norm_num : (0:K) ≤ 2)]
    norm_num
  rw [w, if_neg h2, abs_of_nonneg (by norm_num : (0:K) ≤ 2)]
  ring

theorem w_even (x : K) : w (-x) = w x := by
  simp [w, abs_neg]

theorem w_nonneg (x : K) (hx : |x| ≤ 2) : 0 ≤ w x := by
  have h0 : (0 : K) ≤ |x| := abs_nonneg x
  rw [w]
  split_ifs with h
  · nlinarith [sq_nonneg (1 - |x|), sq_nonneg |x|]
  · have h1 : (1 : K) ≤ |x| := not_lt.mp h
    have : -(1 / 6) * |x| ^ 3 + |x| ^ 2 - 2 * |x| + 4 / 3 = (2 - |x|) ^ 3 / 6 := by ring
    rw [this]
    have h2 : (0 : K) ≤ 2 - |x| := by linarith
    positivity

theorem w_eval_lo (x : K) (h0 : 0 ≤ x) (h1 : x < 1) :
    w x = 0.5 * x ^ 3 - x ^ 2 + 2 / 3 := by
  rw [w, abs_of_nonneg h0, if_pos h1]

theorem w_eval_hi (x : K) (h0 : 1 ≤ x) (h1 : x ≤ 2) :
    w x = -(1 / 6) * x ^ 3 + x ^ 2 - 2 * x + 4 / 3 := by
  rw [w, abs_of_nonneg (by linarith : (0 : K) ≤ x), if_neg (not_lt.mpr h0)]

theorem dw_eval_lo (x : K) (h0 : 0 ≤ x) (h1 : x < 1) :
    dw x = 1.5 * x ^ 2 - 2 * x := by
  rcases eq_or_lt_of_le h0 with h | h
  · rw [dw, abs_of_nonneg h0, if_neg (by linarith), if_pos h1, one_mul]
  · rw [dw, abs_of_nonneg h0, if_neg (not_lt.mpr h0), if_pos h1, one_mul]

theorem dw_eval_hi (x : K) (h0 : 1 ≤ x) (h1 : x ≤ 2) :
    dw x = -0.5 * x ^ 2 + 2 * x - 2 := by
  have hx0 : (0 : K) ≤ x := by linarith
  rw [dw, abs_of_nonneg hx0, if_neg (not_lt.mpr hx0), if_neg (not_lt.mpr h0), one_mul]

theorem dw_odd (x : K) : dw (-x) = -(dw x) := by
  rcases lt_trichotomy x 0 with h | h | h
  · rw [dw, dw, abs_neg, if_pos h, if_neg (by linarith : ¬(-x < 0))]
    ring
  · subst h
    rw [dw, dw]
    norm_num
  · rw [dw, dw, abs_neg, if_neg (by linarith : ¬x < 0), if_pos (by linarith : -x < 0)]
    ring

/-- Partition of unity of the cubic B-spline at offset `t ∈ [0, 1)`: the four kernel
weights seen by the four cells of one axis window sum to 1. -/
theorem w_window_sum (t : K) (h0 : 0 ≤ t) (h1 : t < 1) :
    w (-1 - t) + w (-t) + w (1 - t) + w (2 - t) = 1 := by
  have e1 : |(-1 - t : K)| = 1 + t := by
    rw [abs_of_nonpos (by linarith)]; ring
  have e2 : |(-t : K)| = t := by rw [abs_neg, abs_of_nonneg h0]
  have e3 : |(1 - t : K)| = 1 - t := abs_of_nonneg (by linarith)
  have e4 : |(2 - t : K)| = 2 - t := abs_of_nonneg (by linarith)
  rcases eq_or_lt_of_le h0 with h | h
  · subst h
    rw [w, w, w, w, e1, e2, e3, e4]
    rw [if_neg (by norm_num), if_pos (by norm_num), if_neg (by norm_num),
      if_neg (by norm_num)]
    ring
  · rw [w, w, w, w, e1, e2, e3, e4]
    rw [if_neg (by linarith), if_pos (by linarith), if_pos (by linarith),
      if_neg (by linarith)]
    ring

theorem Ico_four (l : ℤ) : Finset.Ico l (l + 4) = {l, l + 1, l + 2, l + 3} := by
  ext i
  simp only [Finset.mem_Ico, Finset.mem_insert, Finset.mem_singleton]
  omega

/-- The unclipped axis window sums the kernel weights to exactly 1. -/
theorem window_sum_one (x : K) :
    ∑ i ∈ Finset.Ico (⌊x⌋ - 1) (⌊x⌋ + 3), w ((i : K) - x) = 1 := by
  have h4 : (⌊x⌋ : ℤ) + 3 = (⌊x⌋ - 1) + 4 := by ring
  have hf : (⌊x⌋ : K) = x - Int.fract x := by
    rw [Int.fract]; ring
  have ht0 : 0 ≤ Int.fract x := Int.fract_nonneg x
  have ht1 : Int.fract x < 1 := Int.fract_lt_one x
  rw [h4, Ico_four]
  rw [Finset.sum_insert (by simp only [Finset.mem_insert, Finset.mem_singleton]; omega),
    Finset.sum_insert (by simp only [Finset.mem_insert, Finset.mem_singleton]; omega),
    Finset.sum_insert (by simp only [Finset.mem_singleton]; omega),
    Finset.sum_singleton]
  have a1 : ((⌊x⌋ - 1 : ℤ) : K) - x = -1 - Int.fract x := by push_cast [hf]; ring
  have a2 : ((⌊x⌋ - 1 + 1 : ℤ) : K) - x = -(Int.fract x) := by push_cast [hf]; ring
  have a3 : ((⌊x⌋ - 1 + 2 : ℤ) : K) - x = 1 - Int.fract x := by push_cast [hf]; ring
  have a4 : ((⌊x⌋ - 1 + 3 : ℤ) : K) - x = 2 - Int.fract x := by push_cast [hf]; ring
  rw [a1, a2, a3, a4, ← add_assoc, ← add_assoc]
  exact w_window_sum (Int.fract x) ht0 ht1

theorem mem_window_abs_le {x : K} {i : ℤ}
    (hi : i ∈ Finset.Ico (⌊x⌋ - 1) (⌊x⌋ + 3)) : |(i : K) - x| ≤ 2 := by
  rw [Finset.mem_Ico] at hi
  have hlo : ((⌊x⌋ - 1 : ℤ) : K) ≤ (i : K) := Int.cast_le.mpr hi.1
  have hhi : (i : K) ≤ ((⌊x⌋ + 2 : ℤ) : K) := Int.cast_le.mpr (by omega)
  have hfl : (⌊x⌋ : K) ≤ x := Int.floor_le x
  have hfu : x < (⌊x⌋ : K) + 1 := Int.lt_floor_add_one x
  push_cast at hlo hhi
  rw [abs_le]
  constructor <;> linarith

theorem mem_axisRange_subset {r : ℤ} {x : K} :
    axisRange r x ⊆ Finset.Ico (⌊x⌋ - 1) (⌊x⌋ + 3) :=
  Finset.Ico_subset_Ico (le_max_right 0 (⌊x⌋ - 1)) (min_le_right r (⌊x⌋ + 3))

theorem mem_axisRange_abs_le {r : ℤ} {x : K} {i : ℤ} (hi : i ∈ axisRange r x) :
    |(i : K) - x| ≤ 2 :=
  mem_window_abs_le (mem_axisRange_subset hi)

theorem axisSum_nonneg (r : ℤ) (x : K) : 0 ≤ ∑ i ∈ axisRange r x, w ((i : K) - x) :=
  Finset.sum_nonneg fun i hi => w_nonneg _ (mem_axisRange_abs_le hi)

theorem axisSum_le_one (r : ℤ) (x : K) : ∑ i ∈ axisRange r x, w ((i : K) - x) ≤ 1 := by
  have h := Finset.sum_le_sum_of_subset_of_nonneg (mem_axisRange_subset (r := r) (x := x))
    (fun i hi _ => w_nonneg _ (mem_window_abs_le hi))
  calc ∑ i ∈ axisRange r x, w ((i : K) - x)
      ≤ ∑ i ∈ Finset.Ico (⌊x⌋ - 1) (⌊x⌋ + 3), w ((i : K) - x) := h
    _ = 1 := window_sum_one x

theorem axisSum_full (r : ℤ) (x : K) (hlo : 0 ≤ ⌊x⌋ - 1) (hhi : ⌊x⌋ + 3 ≤ r) :
    ∑ i ∈ axisRange r x, w ((i : K) - x) = 1 := by
  rw [axisRange, max_eq_right hlo, min_eq_right hhi]
  exact window_sum_one x

theorem w3_apply (a : Vec3 K) : w3 a = w (a 0) * w (a 1) * w (a 2) := rfl

theorem idxVec_sub_apply (i j k : ℤ) (pos : Vec3 K) :
    ((idxVec (i, j, k) - pos : Vec3 K)) 0 = (i : K) - pos 0 ∧
    ((idxVec (i, j, k) - pos : Vec3 K)) 1 = (j : K) - pos 1 ∧
    ((idxVec (i, j, k) - pos : Vec3 K)) 2 = (k : K) - pos 2 := by
  refine ⟨?_, ?_, ?_⟩ <;> simp [idxVec]

theorem w3_neg (a : Vec3 K) : w3 (-a) = w3 a := by
  simp [w3, Pi.neg_apply, w_even]

theorem region_subset_domain (res : Idx) (pos : Vec3 K) :
    region res pos ⊆ domainCells res := by
  refine Finset.product_subset_product ?_ (Finset.product_subset_product ?_ ?_) <;>
    exact Finset.Ico_subset_Ico (le_max_left 0 _) (min_le_left _ _)

theorem mem_region_w3_nonneg {res : Idx} {pos : Vec3 K} {ind : Idx}
    (h : ind ∈ region res pos) : 0 ≤ w3 (idxVec ind - pos) := by
  obtain ⟨i, j, k⟩ := ind
  rw [region, Finset.mem_product, Finset.mem_product] at h
  obtain ⟨hi, hj, hk⟩ := h
  obtain ⟨e0, e1, e2⟩ := idxVec_sub_apply i j k pos
  rw [w3_apply, e0, e1, e2]
  exact mul_nonneg
    (mul_nonneg (w_nonneg _ (mem_axisRange_abs_le hi)) (w_nonneg _ (mem_axisRange_abs_le hj)))
    (w_nonneg _ (mem_axisRange_abs_le hk))

theorem regionWeightSum_eq_prod (res : Idx) (pos : Vec3 K) :
    regionWeightSum res pos =
      (∑ i ∈ axisRange res.1 (pos 0), w ((i : K) - pos 0)) *
      (∑ j ∈ axisRange res.2.1 (pos 1), w ((j : K) - pos 1)) *
      (∑ k ∈ axisRange res.2.2 (pos 2), w ((k : K) - pos 2)) := by
  rw [regionWeightSum, region, Finset.sum_product]
  trans ∑ i ∈ axisRange res.1 (pos 0),
      w ((i : K) - pos 0) *
        ((∑ j ∈ axisRange res.2.1 (pos 1), w ((j : K) - pos 1)) *
          (∑ k ∈ axisRange res.2.2 (pos 2), w ((k : K) - pos 2)))
  · refine Finset.sum_congr rfl fun i _ => ?_
    rw [Finset.sum_product,
      Finset.sum_mul_sum (axisRange res.2.1 (pos 1)) (axisRange res.2.2 (pos 2))
        (fun j => w ((j : K) - pos 1)) (fun k => w ((k : K) - pos 2)),
      Finset.mul_sum]
    refine Finset.sum_congr rfl fun j _ => ?_
    rw [Finset.mul_sum]
    refine Finset.sum_congr rfl fun k _ => ?_
    obtain ⟨e0, e1, e2⟩ := idxVec_sub_apply i j k pos
    rw [w3_apply, e0, e1, e2]
    ring
  · rw [← Finset.sum_mul, mul_assoc]

theorem regionWeightSum_full {res : Idx} {pos : Vec3 K} (h : regionFull res pos) :
    regionWeightSum res pos = 1 := by
  obtain ⟨⟨h0l, h0r⟩, ⟨h1l, h1r⟩, ⟨h2l, h2r⟩⟩ := h
  rw [regionWeightSum_eq_prod, axisSum_full _ _ h0l h0r, axisSum_full _ _ h1l h1r,
    axisSum_full _ _ h2l h2r]
  ring

theorem regionWeightSum_nonneg (res : Idx) (pos : Vec3 K) :
    0 ≤ regionWeightSum res pos := by
  rw [regionWeightSum_eq_prod]
  exact mul_nonneg (mul_nonneg (axisSum_nonneg _ _) (axisSum_nonneg _ _)) (axisSum_nonneg _ _)

theorem regionWeightSum_le_one (res : Idx) (pos : Vec3 K) :
    regionWeightSum res pos ≤ 1 := by
  rw [regionWeightSum_eq_prod]
  have n0 := axisSum_nonneg res.1 (pos 0)
  have n1 := axisSum_nonneg res.2.1 (pos 1)
  have n2 := axisSum_nonneg res.2.2 (pos 2)
  have l0 := axisSum_le_one res.1 (pos 0)
  have l1 := axisSum_le_one res.2.1 (pos 1)
  have l2 := axisSum_le_one res.2.2 (pos 2)
  exact mul_le_one₀ (mul_le_one₀ l0 n1 l1) n2 l2

theorem list_sum_swap {α M : Type} [AddCommMonoid M] (l : List α) (t : Finset Idx)
    (f : α → Idx → M) :
    ∑ b ∈ t, (l.map fun a => f a b).sum = (l.map fun a => ∑ b ∈ t, f a b).sum := by
  induction l with
  | nil => simp
  | cons hd tl ih =>
    simp only [List.map_cons, List.sum_cons, Finset.sum_add_distrib, ih]

theorem list_sum_split {α : Type} (l : List α) (q : α → Bool) (f : α → K) :
    (l.map f).sum =
      ((l.filter q).map f).sum + ((l.filter fun a => !(q a)).map f).sum := by
  induction l with
  | nil => simp
  | cons hd tl ih =>
    by_cases h : q hd
    · simp [List.filter_cons, h, ih]
      ring
    · simp [List.filter_cons, h, ih]
      ring

theorem list_sum_nonneg_eq_zero {α : Type} {l : List α} {f : α → K}
    (hnn : ∀ a ∈ l, 0 ≤ f a) (hz : (l.map f).sum = 0) : ∀ a ∈ l, f a = 0 := by
  induction l with
  | nil => simp
  | cons hd tl ih =>
    simp only [List.map_cons, List.sum_cons] at hz
    have hhd : 0 ≤ f hd := hnn hd (List.mem_cons_self hd tl)
    have htl : 0 ≤ (tl.map f).sum :=
      List.sum_nonneg (by
        intro x hx
        obtain ⟨a, ha, rfl⟩ := List.mem_map.mp hx
        exact hnn a (List.mem_cons_of_mem hd ha))
    intro a ha
    rcases List.mem_cons.mp ha with rfl | ha'
    · linarith
    · exact ih (fun b hb => hnn b (List.mem_cons_of_mem hd hb)) (by linarith) a ha'

theorem totalGridMass_rasterize (res : Idx) (s : SimState K) :
    totalGridMass res (rasterize res s) =
      (s.particles.map fun p => p.mass * regionWeightSum res p.pos).sum := by
  rw [totalGridMass, rasterize]
  simp only [rasterizeMass]
  rw [list_sum_swap]
  congr 1
  refine List.map_congr_left fun p _ => ?_
  rw [Finset.sum_ite_mem, Finset.inter_eq_right.mpr (region_subset_domain res p.pos),
    regionWeightSum, Finset.mul_sum]
  exact Finset.sum_congr rfl fun ind _ => mul_comm _ _

theorem list_filter_map_sum_congr {α : Type} (l : List α) (q : α → Bool) (f g : α → K)
    (h : ∀ a ∈ l, q a = true → f a = g a) :
    ((l.filter q).map f).sum = ((l.filter q).map g).sum := by
  congr 1
  refine List.map_congr_left fun a ha => ?_
  rw [List.mem_filter] at ha
  exact h a ha.1 ha.2

/-- C2 (amended): after `rasterize`, the total grid mass splits into the full masses of
the particles whose 4×4×4 window is unclipped plus, for each boundary-clipped particle,
its in-domain mass-weighted kernel sum; every clipped particle contributes at most its
full mass (the loss can be zero when the clipped-out cells sit exactly at kernel distance
2, so "less than" fails — see the counterexample). -/
theorem c2_mass_conservation {K : Type} [LinearOrderedField K] [FloorRing K] (res : Idx)
    (s : SimState K) (hm : ∀ p ∈ s.particles, 0 ≤ p.mass) :
    totalGridMass res (rasterize res s) =
      ((s.particles.filter fun p => decide (regionFull res p.pos)).map
        fun p => p.mass).sum +
      ((s.particles.filter fun p => !(decide (regionFull res p.pos))).map
        fun p => p.mass * regionWeightSum res p.pos).sum ∧
    ∀ p ∈ s.particles, ¬ regionFull res p.pos →
      p.mass * regionWeightSum res p.pos ≤ p.mass := by
  constructor
  · rw [totalGridMass_rasterize,
      list_sum_split s.particles (fun p => decide (regionFull res p.pos))]
    congr 1
    refine list_filter_map_sum_congr s.particles _ _ _ fun p _ hq => ?_
    rw [regionWeightSum_full (of_decide_eq_true hq), mul_one]
  · intro p hp _
    exact mul_le_of_le_one_right (hm p hp) (regionWeightSum_le_one res p.pos)

theorem c2_mass_conservation_witness :
    totalGridMass (4, 4, 4) (rasterize (4, 4, 4) testStateQ) =
      ((testStateQ.particles.filter fun p => decide (regionFull (4, 4, 4) p.pos)).map
        fun p => p.mass).sum +
      ((testStateQ.particles.filter fun p => !(decide (regionFull (4, 4, 4) p.pos))).map
        fun p => p.mass * regionWeightSum (4, 4, 4) p.pos).sum :=
  (c2_mass_conservation (4, 4, 4) testStateQ (by
    intro p hp
    rw [testStateQ, List.mem_singleton] at hp
    subst hp
    norm_num [testParticleQ])).1

/-- C2, original wording refuted: the particle at `(2,2,2)` on a `4×4×4` grid is
boundary-clipped (its window is not fully inside the domain; only 27 cells remain), yet
its in-domain mass-weighted kernel sum is exactly its full mass — the clipped-out cells
sit at kernel distance 2, where the weight vanishes — so after `rasterize` the total grid
mass equals the full particle mass, contradicting "clipped particles contribute less than
their full mass". -/
theorem axisSum_at_two : (∑ i ∈ axisRange (4 : ℤ) ((2 : ℚ)), w ((i : ℚ) - 2)) = 1 := by
  have hfl : ⌊(2 : ℚ)⌋ = 2 := by norm_num
  have hrange : axisRange (4 : ℤ) ((2 : ℚ)) = ({1, 2, 3} : Finset ℤ) := by
    rw [axisRange, hfl]
    decide
  rw [hrange, Finset.sum_insert (by decide), Finset.sum_insert (by decide),
    Finset.sum_singleton]
  have e1 : ((1 : ℤ) : ℚ) - 2 = -1 := by norm_num
  have e2 : ((2 : ℤ) : ℚ) - 2 = 0 := by norm_num
  have e3 : ((3 : ℤ) : ℚ) - 2 = 1 := by norm_num
  have w1 : w ((1 : ℚ)) = 1 / 6 := by
    rw [w_eval_hi (1 : ℚ) le_rfl (by norm_num)]
    norm_num
  rw [e1, e2, e3, w_even (1 : ℚ), w1, w_zero]
  norm_num

theorem regionWeightSum_at_two :
    regionWeightSum ((4, 4, 4) : Idx) (fun _ => (2 : ℚ)) = 1 := by
  rw [regionWeightSum_eq_prod]
  simp only [axisSum_at_two]
  norm_num

theorem c2_counterexample :
    ¬ regionFull ((4, 4, 4) : Idx) testParticleQ.pos ∧
    (region ((4, 4, 4) : Idx) testParticleQ.pos).card = 27 ∧
    testParticleQ.mass * regionWeightSum (4, 4, 4) testParticleQ.pos =
      testParticleQ.mass ∧
    totalGridMass (4, 4, 4) (rasterize (4, 4, 4) testStateQ) = 1 ∧
    testParticleQ.mass = 1 := by
  have hS : regionWeightSum ((4, 4, 4) : Idx) testParticleQ.pos = 1 :=
    regionWeightSum_at_two
  refine ⟨by decide, by decide, ?_, ?_, rfl⟩
  · rw [hS, mul_one]
  · rw [totalGridMass_rasterize]
    show (testParticleQ.mass * regionWeightSum (4, 4, 4) testParticleQ.pos + 0) = 1
    rw [hS, mul_one, add_zero]
    rfl

/-- C7: after `rasterize`, a zero-mass cell keeps exactly zero velocity (the
normalization divides only cells of positive mass, and a zero mass sum forces every
momentum contribution to vanish); and `apply_deformation_force` leaves zero-mass cells
untouched, adding `(delta_t / cell_mass) * (tmp_force * kernel_gradient)` only on cells
of nonzero mass. -/
theorem c7_zero_mass_safe (res : Idx) (env : Env K) (dt : K) (s : SimState K) (ind : Idx)
    (hm : ∀ p ∈ s.particles, 0 ≤ p.mass) :
    ((rasterize res s).grid_mass ind = 0 → (rasterize res s).grid_velocity ind = 0) ∧
    (s.grid_mass ind = 0 →
      (applyDeformationForce res env dt s).grid_velocity ind = s.grid_velocity ind) ∧
    (0 < s.grid_mass ind →
      (applyDeformationForce res env dt s).grid_velocity ind =
        s.grid_velocity ind +
          ((s.particles.map fun p => { p with tmp_force := env.calculateForceF p }).map
            fun p =>
              if ind ∈ region res p.pos then
                (dt / s.grid_mass ind) • (p.tmp_force).mulVec (dw3 (p.pos - idxVec ind))
              else 0).sum) := by
  refine ⟨?_, ?_, ?_⟩
  · intro h
    have hmass : rasterizeMass res s ind = 0 := h
    have hz : ∀ p ∈ s.particles,
        (if ind ∈ region res p.pos then w3 (idxVec ind - p.pos) * p.mass else 0) = 0 := by
      refine list_sum_nonneg_eq_zero (fun p hp => ?_) hmass
      split_ifs with hmem
      · exact mul_nonneg (mem_region_w3_nonneg hmem) (hm p hp)
      · exact le_refl 0
    show (if 0 < rasterizeMass res s ind then
        (1 / rasterizeMass res s ind) • rasterizeMomentum res s ind
      else rasterizeMomentum res s ind) = 0
    rw [if_neg (by rw [hmass]; exact lt_irrefl 0)]
    refine List.sum_eq_zero fun x hx => ?_
    obtain ⟨p, hp, rfl⟩ := List.mem_map.mp hx
    split_ifs with hmem
    · have hzero := hz p hp
      rw [if_pos hmem] at hzero
      rw [hzero, zero_smul]
    · rfl
  · intro h
    show s.grid_velocity ind + _ = s.grid_velocity ind
    rw [add_right_eq_self]
    refine List.sum_eq_zero fun x hx => ?_
    obtain ⟨p, _, rfl⟩ := List.mem_map.mp hx
    split_ifs with hmem <;> rfl
  · intro h
    show s.grid_velocity ind + _ = s.grid_velocity ind + _
    congr 1
    refine congrArg List.sum (List.map_congr_left fun p _ => ?_)
    split_ifs with hmem hmass
    · exact absurd hmass (ne_of_gt h)
    · rfl
    · rfl

theorem clampK_of_mem (x lo hi : K) (h1 : lo ≤ x) (h2 : x ≤ hi) : clampK x lo hi = x := by
  rw [clampK, max_eq_left h1, min_eq_left h2]

theorem clampK_pos {lo hi : K} (x : K) (hlo : 0 < lo) (hle : lo ≤ hi) :
    0 < clampK x lo hi := by
  rw [clampK]
  exact lt_of_lt_of_le hlo (le_min (le_max_right x lo) hle)

theorem clampDiag_diagonal (d : Fin 3 → K) (lo hi : K) :
    clampDiag (Matrix.diagonal d) lo hi = Matrix.diagonal fun i => clampK (d i) lo hi := by
  ext i j
  rw [clampDiag]
  by_cases h : i = j
  · subst h
    simp [Matrix.diagonal_apply_eq]
  · simp [Matrix.of_apply, if_neg h, Matrix.diagonal_apply_ne _ h, h]

/-- C4: for the EP variant, `plasticity` leaves `dg_elastic` unchanged whenever the SVD
of `dg_elastic` already has all singular values inside `[1 - theta_c, 1 + theta_s]` (the
yield projection is idempotent on feasible states). -/
theorem c4_ep_plasticity_idempotent (svdF : Mat3 K → Mat3 K × Mat3 K × Mat3 K)
    (theta_c theta_s : K) (dg_e dg_cache u sig v : Mat3 K)
    (hsvd : svdF dg_e = (u, sig, v))
    (hrec : u * sig * v.transpose = dg_e)
    (hrange : ∀ i : Fin 3, 1 - theta_c ≤ sig i i ∧ sig i i ≤ 1 + theta_s) :
    (EPplasticity svdF theta_c theta_s dg_e dg_cache).1 = dg_e := by
  have hfix : clampDiag sig (1 - theta_c) (1 + theta_s) = sig := by
    ext i j
    rw [clampDiag]
    by_cases h : i = j
    · subst h
      simp only [Matrix.of_apply, if_pos rfl]
      exact clampK_of_mem _ _ _ (hrange i).1 (hrange i).2
    · simp only [Matrix.of_apply, if_neg h]
  simp only [EPplasticity, hsvd]
  rw [hfix, hrec]

theorem c4_ep_plasticity_idempotent_witness :
    (EPplasticity (fun _ => ((1, 1, 1) : Mat3 ℚ × Mat3 ℚ × Mat3 ℚ)) (25e-3) (75e-4)
      1 1).1 = 1 :=
  c4_ep_plasticity_idempotent _ (25e-3) (75e-4) 1 1 1 1 1 rfl
    (by rw [Matrix.transpose_one, mul_one, mul_one])
    (fun i => by rw [Matrix.one_apply_eq]; constructor <;> norm_num)

theorem hasDerivAt_w_lo (x : ℝ) (h0 : 0 < x) (h1 : x < 1) : HasDerivAt w (dw x) x := by
  have h3 : HasDerivAt (fun y : ℝ => y ^ 3) (3 * x ^ 2) x := by
    simpa using hasDerivAt_pow 3 x
  have h2 : HasDerivAt (fun y : ℝ => y ^ 2) (2 * x) x := by
    simpa using hasDerivAt_pow 2 x
  have hpoly : HasDerivAt (fun y : ℝ => 0.5 * y ^ 3 - y ^ 2 + 2 / 3)
      (1.5 * x ^ 2 - 2 * x) x := by
    have := ((h3.const_mul (0.5 : ℝ)).sub h2).add_const (2 / 3 : ℝ)
    convert this using 1
    ring
  have heq : w =ᶠ[nhds x] fun y : ℝ => 0.5 * y ^ 3 - y ^ 2 + 2 / 3 := by
    filter_upwards [Ioo_mem_nhds h0 h1] with y hy
    exact w_eval_lo y hy.1.le hy.2
  rw [dw_eval_lo x h0.le h1]
  exact hpoly.congr_of_eventuallyEq heq

theorem hasDerivAt_w_hi (x : ℝ) (h0 : 1 < x) (h1 : x < 2) : HasDerivAt w (dw x) x := by
  have h3 : HasDerivAt (fun y : ℝ => y ^ 3) (3 * x ^ 2) x := by
    simpa using hasDerivAt_pow 3 x
  have h2 : HasDerivAt (fun y : ℝ => y ^ 2) (2 * x) x := by
    simpa using hasDerivAt_pow 2 x
  have hid : HasDerivAt (fun y : ℝ => 2 * y) (2 : ℝ) x := by
    simpa using (hasDerivAt_id x).const_mul (2 : ℝ)
  have hpoly : HasDerivAt (fun y : ℝ => -(1 / 6) * y ^ 3 + y ^ 2 - 2 * y + 4 / 3)
      (-0.5 * x ^ 2 + 2 * x - 2) x := by
    have := (((h3.const_mul (-(1 / 6) : ℝ)).add h2).sub hid).add_const (4 / 3 : ℝ)
    convert this using 1
    ring
  have heq : w =ᶠ[nhds x] fun y : ℝ => -(1 / 6) * y ^ 3 + y ^ 2 - 2 * y + 4 / 3 := by
    filter_upwards [Ioo_mem_nhds h0 h1] with y hy
    exact w_eval_hi y hy.1.le hy.2.le
  rw [dw_eval_hi x h0.le h1.le]
  exact hpoly.congr_of_eventuallyEq heq

/-- C9: for `|x| ≤ 2`, `w` is even with `w(0) = 2/3` and `w(±2) = 0`, and `dw` is the
analytic derivative of `w` on each polynomial piece: `1.5x² - 2x` on `0 ≤ x < 1` and
`-0.5x² + 2x - 2` on `1 ≤ x ≤ 2`, extended as an odd function (witnessed both by the
closed-form piece values and by `HasDerivAt` on the open pieces). -/
theorem c9_kernel_props :
    (∀ x : ℝ, |x| ≤ 2 → w (-x) = w x) ∧
    w (0 : ℝ) = 2 / 3 ∧ w (2 : ℝ) = 0 ∧ w (-2 : ℝ) = 0 ∧
    (∀ x : ℝ, 0 ≤ x → x < 1 → dw x = 1.5 * x ^ 2 - 2 * x) ∧
    (∀ x : ℝ, 1 ≤ x → x ≤ 2 → dw x = -0.5 * x ^ 2 + 2 * x - 2) ∧
    (∀ x : ℝ, |x| ≤ 2 → dw (-x) = -(dw x)) ∧
    (∀ x : ℝ, 0 < x → x < 1 → HasDerivAt w (dw x) x) ∧
    (∀ x : ℝ, 1 < x → x < 2 → HasDerivAt w (dw x) x) := by
  refine ⟨fun x _ => w_even x, w_zero, w_two, ?_, fun x h0 h1 => dw_eval_lo x h0 h1,
    fun x h0 h1 => dw_eval_hi x h0 h1, fun x _ => dw_odd x,
    fun x h0 h1 => hasDerivAt_w_lo x h0 h1, fun x h0 h1 => hasDerivAt_w_hi x h0 h1⟩
  rw [w_even (2 : ℝ)]
  exact w_two

theorem c9_kernel_props_witness :
    w (-(1 : ℝ)) = w (1 : ℝ) ∧ dw ((1 : ℝ) / 2) = 1.5 * ((1 : ℝ) / 2) ^ 2 - 2 * (1 / 2) ∧
    HasDerivAt w (dw ((3 : ℝ) / 2)) ((3 : ℝ) / 2) :=
  ⟨c9_kernel_props.1 1 (by norm_num),
    c9_kernel_props.2.2.2.2.1 (1 / 2) (by norm_num) (by norm_num),
    c9_kernel_props.2.2.2.2.2.2.2.2 (3 / 2) (by norm_num) (by norm_num)⟩

/-- C6: `project(sigma, alpha)` of the DP variant has exactly three branches over
`log(sigma)`: degenerate deviator norm (≤ 0) or positive trace yields the identity and
the Frobenius norm of `log(sigma)` as multiplier; non-positive `delta_gamma` keeps
`sigma` with multiplier 0; otherwise the scaled deviator is subtracted, the result
exponentiated back, and `delta_gamma` returned. -/
theorem c6_dp_project_branches (sigma : Mat3 ℝ) (alpha lambda_0 mu_0 : ℝ) :
    ((dpDiagNorm (dpDeviator (dpLogSig sigma)) ≤ 0 ∨ 0 < dpTrace (dpLogSig sigma)) →
      DPproject sigma alpha lambda_0 mu_0 = (1, dpDiagNorm (dpLogSig sigma))) ∧
    (¬(dpDiagNorm (dpDeviator (dpLogSig sigma)) ≤ 0 ∨ 0 < dpTrace (dpLogSig sigma)) →
      dpDeltaGamma sigma alpha lambda_0 mu_0 ≤ 0 →
      DPproject sigma alpha lambda_0 mu_0 = (sigma, 0)) ∧
    (¬(dpDiagNorm (dpDeviator (dpLogSig sigma)) ≤ 0 ∨ 0 < dpTrace (dpLogSig sigma)) →
      0 < dpDeltaGamma sigma alpha lambda_0 mu_0 →
      DPproject sigma alpha lambda_0 mu_0 =
        (Matrix.diagonal
          ![Real.exp ((dpLogSig sigma -
              (dpDeltaGamma sigma alpha lambda_0 mu_0 /
                dpDiagNorm (dpDeviator (dpLogSig sigma))) •
                dpDeviator (dpLogSig sigma)) 0 0),
            Real.exp ((dpLogSig sigma -
              (dpDeltaGamma sigma alpha lambda_0 mu_0 /
                dpDiagNorm (dpDeviator (dpLogSig sigma))) •
                dpDeviator (dpLogSig sigma)) 1 1),
            Real.exp ((dpLogSig sigma -
              (dpDeltaGamma sigma alpha lambda_0 mu_0 /
                dpDiagNorm (dpDeviator (dpLogSig sigma))) •
                dpDeviator (dpLogSig sigma)) 2 2)],
          dpDeltaGamma sigma alpha lambda_0 mu_0)) := by
  refine ⟨?_, ?_, ?_⟩
  · intro h
    rw [DPproject, if_pos h]
  · intro h1 h2
    rw [DPproject, if_neg h1, if_pos h2]
  · intro h1 h2
    rw [DPproject, if_neg h1, if_neg (not_le.mpr h2)]

theorem dpLogSig_one : dpLogSig (1 : Mat3 ℝ) = Matrix.diagonal ![0, 0, 0] := by
  rw [dpLogSig]
  congr 1 <;> simp [Matrix.one_apply]

theorem dpDiagNorm_dev_log_one : dpDiagNorm (dpDeviator (dpLogSig (1 : Mat3 ℝ))) = 0 := by
  rw [dpLogSig_one]
  have htr : dpTrace (Matrix.diagonal ![(0 : ℝ), 0, 0]) = 0 := by
    rw [dpTrace]
    simp [Matrix.diagonal_apply_eq]
  rw [dpDeviator, htr, dpDiagNorm]
  norm_num

theorem c6_dp_project_branches_witness :
    DPproject (1 : Mat3 ℝ) 1 1 1 = (1, dpDiagNorm (dpLogSig (1 : Mat3 ℝ))) :=
  (c6_dp_project_branches (1 : Mat3 ℝ) 1 1 1).1
    (Or.inl (le_of_eq dpDiagNorm_dev_log_one))

/-- C8: the DP variant traps fatally (modelled by `none`) in `calculate_force` whenever
the SVD produces a non-positive singular value, and in `plasticity` whenever the SVD
reconstruction `U Σ Vᵀ` differs from `dg_elastic` by Frobenius norm at least `1e-4`. -/
theorem c8_dp_fatal_traps :
    (∀ (svdF : Mat3 ℝ → Mat3 ℝ × Mat3 ℝ × Mat3 ℝ) (mu_0 lambda_0 vol : ℝ)
      (dg_e : Mat3 ℝ),
      ((svdF dg_e).2.1 0 0 ≤ 0 ∨ (svdF dg_e).2.1 1 1 ≤ 0 ∨ (svdF dg_e).2.1 2 2 ≤ 0) →
      DPcalculateForce svdF mu_0 lambda_0 vol dg_e = none) ∧
    (∀ (svdF : Mat3 ℝ → Mat3 ℝ × Mat3 ℝ × Mat3 ℝ)
      (h_0 h_1 h_2 h_3 lambda_0 mu_0 : ℝ) (dg_e dg_p : Mat3 ℝ) (q alpha : ℝ),
      (1e-4 : ℝ) ≤
        frobNorm ((svdF dg_e).1 * (svdF dg_e).2.1 * (svdF dg_e).2.2.transpose - dg_e) →
      DPplasticity svdF h_0 h_1 h_2 h_3 lambda_0 mu_0 dg_e dg_p q alpha = none) := by
  constructor
  · intro svdF mu_0 lambda_0 vol dg_e h
    rw [DPcalculateForce]
    rw [if_neg]
    rintro ⟨h1, h2, h3⟩
    rcases h with h | h | h <;> linarith
  · intro svdF h_0 h_1 h_2 h_3 lambda_0 mu_0 dg_e dg_p q alpha h
    rw [DPplasticity, if_neg (not_lt.mpr h)]

theorem frobNorm_one_ge : (1e-4 : ℝ) ≤ frobNorm ((1 : Mat3 ℝ) - 0) := by
  have hsum : (∑ i, ∑ j, (((1 : Mat3 ℝ) - 0) i j) ^ 2) = 3 := by
    simp [Matrix.one_apply, Fin.sum_univ_three]
  rw [frobNorm, hsum]
  have h1 : (1 : ℝ) ≤ Real.sqrt 3 := by
    rw [show (1 : ℝ) = Real.sqrt 1 by rw [Real.sqrt_one]]
    exact Real.sqrt_le_sqrt (by norm_num)
  linarith

theorem c8_dp_fatal_traps_witness :
    DPcalculateForce (fun _ => ((1, 0, 1) : Mat3 ℝ × Mat3 ℝ × Mat3 ℝ)) 1 1 1 1 = none ∧
    DPplasticity (fun _ => ((1, 1, 1) : Mat3 ℝ × Mat3 ℝ × Mat3 ℝ)) 1 1 1 1 1 1 0 1 0 1 =
      none :=
  ⟨c8_dp_fatal_traps.1 _ 1 1 1 1 (Or.inl (le_of_eq (Matrix.zero_apply 0 0))),
    c8_dp_fatal_traps.2 _ 1 1 1 1 1 1 0 1 0 1 (by
      show (1e-4 : ℝ) ≤ frobNorm ((1 : Mat3 ℝ) * 1 * (1 : Mat3 ℝ).transpose - 0)
      rw [Matrix.transpose_one, mul_one, mul_one]
      exact frobNorm_one_ge)⟩

theorem mInv_eq_inv (m : Mat3 K) : mInv m = m⁻¹ := by
  rw [mInv, Matrix.inv_def, Ring.inverse_eq_inv]

theorem det_mInv (m : Mat3 K) : (mInv m).det = (m.det)⁻¹ := by
  rw [mInv_eq_inv, Matrix.det_nonsing_inv, Ring.inverse_eq_inv]

theorem det_uv_pos (u v M : Mat3 K) (d : Fin 3 → K)
    (hrec : u * Matrix.diagonal d * v.transpose = M)
    (hd : ∀ i, 0 ≤ d i) (hM : 0 < M.det) : 0 < u.det * v.det := by
  have hMdet : M.det = u.det * v.det * ∏ i, d i := by
    rw [← hrec, Matrix.det_mul, Matrix.det_mul, Matrix.det_transpose, Matrix.det_diagonal]
    ring
  have hprod_nonneg : 0 ≤ ∏ i, d i := Finset.prod_nonneg fun i _ => hd i
  rcases mul_pos_iff.mp (hMdet ▸ hM) with ⟨h1, _⟩ | ⟨_, h2⟩
  · exact h1
  · exact absurd h2 (not_lt.mpr hprod_nonneg)

theorem det_clamp_recon_pos (u v M : Mat3 K) (d : Fin 3 → K) (lo hi : K)
    (hrec : u * Matrix.diagonal d * v.transpose = M)
    (hd : ∀ i, 0 ≤ d i) (hM : 0 < M.det) (hlo : 0 < lo) (hle : lo ≤ hi) :
    0 < (u * clampDiag (Matrix.diagonal d) lo hi * v.transpose).det := by
  have huv := det_uv_pos u v M d hrec hd hM
  have hclamp : 0 < ∏ i, clampK (d i) lo hi :=
    Finset.prod_pos fun i _ => clampK_pos _ hlo hle
  rw [clampDiag_diagonal, Matrix.det_mul, Matrix.det_mul, Matrix.det_transpose,
    Matrix.det_diagonal]
  rw [show u.det * (∏ i, clampK (d i) lo hi) * v.det =
    (u.det * v.det) * ∏ i, clampK (d i) lo hi from by ring]
  exact mul_pos huv hclamp

theorem dpProject_fst_det_pos (d : Fin 3 → ℝ) (hd : ∀ i, 0 < d i)
    (alpha lambda_0 mu_0 : ℝ) :
    0 < ((DPproject (Matrix.diagonal d) alpha lambda_0 mu_0).1).det := by
  rw [DPproject]
  split_ifs
  · rw [Matrix.det_one]
    norm_num
  · rw [Matrix.det_diagonal]
    exact Finset.prod_pos fun i _ => hd i
  · rw [Matrix.det_diagonal, Fin.prod_univ_three]
    simp only [Matrix.cons_val_zero, Matrix.cons_val_one, Matrix.head_cons,
      Matrix.cons_val_two, Matrix.tail_cons]
    exact mul_pos (mul_pos (Real.exp_pos _) (Real.exp_pos _)) (Real.exp_pos _)

/-- C5: for both material variants, `plasticity` preserves strict positivity of the
determinants: given valid SVD data (exact reconstruction, nonnegative singular values)
and strictly positive incoming determinants (`det dg_elastic`, and `det dg_cache` for EP
resp. `det dg_plastic` for DP), plus yield bounds with `1 - theta_c > 0` for EP, the
returned `dg_elastic` and `dg_plastic` have strictly positive determinants (and the DP
routine does not trap). -/
theorem c5_plasticity_det_pos :
    (∀ (svdF : Mat3 K → Mat3 K × Mat3 K × Mat3 K) (theta_c theta_s : K)
      (dg_e dg_cache u1 v1 u2 v2 : Mat3 K) (d1 d2 : Fin 3 → K),
      svdF dg_e = (u1, Matrix.diagonal d1, v1) →
      u1 * Matrix.diagonal d1 * v1.transpose = dg_e →
      (∀ i, 0 ≤ d1 i) →
      svdF (mInv (u1 * clampDiag (Matrix.diagonal d1) (1 - theta_c) (1 + theta_s) *
          v1.transpose) * dg_cache) = (u2, Matrix.diagonal d2, v2) →
      u2 * Matrix.diagonal d2 * v2.transpose =
        mInv (u1 * clampDiag (Matrix.diagonal d1) (1 - theta_c) (1 + theta_s) *
          v1.transpose) * dg_cache →
      (∀ i, 0 ≤ d2 i) →
      0 < dg_e.det → 0 < dg_cache.det → 0 < 1 - theta_c → 1 - theta_c ≤ 1 + theta_s →
      0 < (EPplasticity svdF theta_c theta_s dg_e dg_cache).1.det ∧
        0 < (EPplasticity svdF theta_c theta_s dg_e dg_cache).2.det) ∧
    (∀ (svdF : Mat3 ℝ → Mat3 ℝ × Mat3 ℝ × Mat3 ℝ)
      (h_0 h_1 h_2 h_3 lambda_0 mu_0 : ℝ) (dg_e dg_p : Mat3 ℝ) (q alpha : ℝ)
      (u v : Mat3 ℝ) (d : Fin 3 → ℝ),
      svdF dg_e = (u, Matrix.diagonal d, v) →
      u * Matrix.diagonal d * v.transpose = dg_e →
      (∀ i, 0 < d i) → 0 < dg_e.det → 0 < dg_p.det →
      ∃ r, DPplasticity svdF h_0 h_1 h_2 h_3 lambda_0 mu_0 dg_e dg_p q alpha = some r ∧
        0 < r.1.det ∧ 0 < r.2.1.det) := by
  constructor
  · intro svdF theta_c theta_s dg_e dg_cache u1 v1 u2 v2 d1 d2 hsvd1 hrec1 hd1 hsvd2
      hrec2 hd2 hdet_e hdet_c hlo hle
    have hpos1 : 0 <
        (u1 * clampDiag (Matrix.diagonal d1) (1 - theta_c) (1 + theta_s) *
          v1.transpose).det :=
      det_clamp_recon_pos u1 v1 dg_e d1 _ _ hrec1 hd1 hdet_e hlo hle
    have hM2 : 0 <
        ((mInv (u1 * clampDiag (Matrix.diagonal d1) (1 - theta_c) (1 + theta_s) *
          v1.transpose)) * dg_cache).det := by
      rw [Matrix.det_mul, det_mInv]
      exact mul_pos (inv_pos.mpr hpos1) hdet_c
    constructor
    · simp only [EPplasticity, hsvd1]
      exact hpos1
    · simp only [EPplasticity, hsvd1, hsvd2]
      exact det_clamp_recon_pos u2 v2 _ d2 _ _ hrec2 hd2 hM2 (by norm_num) (by norm_num)
  · intro svdF h_0 h_1 h_2 h_3 lambda_0 mu_0 dg_e dg_p q alpha u v d hsvd hrec hd
      hdet_e hdet_p
    have hd0 : ∀ i, 0 ≤ d i := fun i => (hd i).le
    have huv : 0 < u.det * v.det := det_uv_pos u v dg_e d hrec hd0 hdet_e
    have hvne : v.det ≠ 0 := by
      intro h0
      rw [h0, mul_zero] at huv
      exact lt_irrefl 0 huv
    have hprod : 0 < ∏ i, d i := Finset.prod_pos fun i _ => hd i
    have htdet : 0 < ((DPproject (Matrix.diagonal d) alpha lambda_0 mu_0).1).det :=
      dpProject_fst_det_pos d hd alpha lambda_0 mu_0
    have hfrob : frobNorm (u * Matrix.diagonal d * v.transpose - dg_e) < 1e-4 := by
      rw [hrec, sub_self]
      have : frobNorm (0 : Mat3 ℝ) = 0 := by
        rw [frobNorm]
        norm_num
      rw [this]
      norm_num
    refine ⟨⟨u * (DPproject (Matrix.diagonal d) alpha lambda_0 mu_0).1 * v.transpose,
      v * mInv (DPproject (Matrix.diagonal d) alpha lambda_0 mu_0).1 *
        Matrix.diagonal d * v.transpose * dg_p,
      q + (DPproject (Matrix.diagonal d) alpha lambda_0 mu_0).2,
      Real.sqrt (2 / 3) *
        (2 * Real.sin ((h_0 +
          (h_1 * (q + (DPproject (Matrix.diagonal d) alpha lambda_0 mu_0).2) - h_3) *
          Real.exp (-h_2 *
            (q + (DPproject (Matrix.diagonal d) alpha lambda_0 mu_0).2))) *
          Real.pi / 180)) /
        (3 - Real.sin ((h_0 +
          (h_1 * (q + (DPproject (Matrix.diagonal d) alpha lambda_0 mu_0).2) - h_3) *
          Real.exp (-h_2 *
            (q + (DPproject (Matrix.diagonal d) alpha lambda_0 mu_0).2))) *
          Real.pi / 180))⟩, ?_, ?_, ?_⟩
    · simp only [DPplasticity, hsvd]
      rw [if_pos hfrob]
    · rw [Matrix.det_mul, Matrix.det_mul, Matrix.det_transpose]
      rw [show u.det * ((DPproject (Matrix.diagonal d) alpha lambda_0 mu_0).1).det *
        v.det = (u.det * v.det) *
          ((DPproject (Matrix.diagonal d) alpha lambda_0 mu_0).1).det from by ring]
      exact mul_pos huv htdet
    · rw [Matrix.det_mul, Matrix.det_mul, Matrix.det_mul, Matrix.det_mul,
        Matrix.det_transpose, det_mInv, Matrix.det_diagonal]
      rw [show v.det * ((DPproject (Matrix.diagonal d) alpha lambda_0 mu_0).1).det⁻¹ *
        (∏ i, d i) * v.det * dg_p.det =
        (v.det * v.det) * ((DPproject (Matrix.diagonal d) alpha lambda_0 mu_0).1).det⁻¹ *
          (∏ i, d i) * dg_p.det from by ring]
      exact mul_pos (mul_pos (mul_pos (mul_self_pos.mpr hvne) (inv_pos.mpr htdet))
        hprod) hdet_p

theorem diagonal_const_one {K : Type} [LinearOrderedField K] :
    Matrix.diagonal (fun _ : Fin 3 => (1 : K)) = (1 : Mat3 K) := by
  ext i j
  rcases eq_or_ne i j with rfl | h
  · simp
  · simp [Matrix.diagonal_apply_ne _ h, Matrix.one_apply_ne h]

theorem c5_plasticity_det_pos_witness :
    (0 < (EPplasticity (fun m => ((1 : Mat3 ℚ), m, 1)) (25e-3) (75e-4) 1 1).1.det ∧
      0 < (EPplasticity (fun m => ((1 : Mat3 ℚ), m, 1)) (25e-3) (75e-4) 1 1).2.det) ∧
    (∃ r, DPplasticity (fun m => ((1 : Mat3 ℝ), m, 1)) 0 0 0 0 1 1 1 1 0 1 = some r ∧
      0 < r.1.det ∧ 0 < r.2.1.det) := by
  constructor
  · have hclampK : clampK (1 : ℚ) (1 - 25e-3) (1 + 75e-4) = 1 :=
      clampK_of_mem _ _ _ (by norm_num) (by norm_num)
    have hclamp : clampDiag (1 : Mat3 ℚ) (1 - 25e-3) (1 + 75e-4) = 1 := by
      rw [← diagonal_const_one, clampDiag_diagonal]
      simp only [hclampK]
    have hM2 : mInv ((1 : Mat3 ℚ) *
        clampDiag (Matrix.diagonal fun _ : Fin 3 => (1 : ℚ)) (1 - 25e-3) (1 + 75e-4) *
        (1 : Mat3 ℚ).transpose) * 1 = 1 := by
      rw [diagonal_const_one, hclamp, Matrix.transpose_one, one_mul, mul_one, mul_one,
        mInv_eq_inv, inv_one]
    exact (c5_plasticity_det_pos (K := ℚ)).1 (fun m => (1, m, 1)) (25e-3) (75e-4) 1 1 1 1 1 1
      (fun _ => 1) (fun _ => 1)
      (by rw [diagonal_const_one])
      (by rw [diagonal_const_one, Matrix.transpose_one, mul_one, mul_one])
      (fun i => by norm_num)
      (by rw [hM2, diagonal_const_one])
      (by simp only [diagonal_const_one, Matrix.transpose_one, mul_one, one_mul, hclamp,
        mInv_eq_inv, inv_one])
      (fun i => by norm_num)
      (by rw [Matrix.det_one]; norm_num)
      (by rw [Matrix.det_one]; norm_num)
      (by norm_num) (by norm_num)
  · exact (c5_plasticity_det_pos (K := ℚ)).2 (fun m => (1, m, 1)) 0 0 0 0 1 1 1 1 0 1 1 1
      (fun _ => 1)
      (by rw [diagonal_const_one])
      (by rw [diagonal_const_one, Matrix.transpose_one, mul_one, mul_one])
      (fun i => by norm_num)
      (by rw [Matrix.det_one]; norm_num)
      (by rw [Matrix.det_one]; norm_num)

/-- C3: in `resample`, the APIC affine matrix is zeroed whenever the particle's bounded
region held fewer than 64 cells or APIC mode is disabled; with APIC the new particle
velocity is the pure grid interpolation, without APIC it is the FLIP-style
`particle_velocity + (interpolated - backed_up_interpolated)`. -/
theorem c3_resample_rules (res : Idx) (apic : Bool) (dt : K) (s : SimState K)
    (p : Particle K) :
    (((region res p.pos).card < 64 ∨ apic = false) →
      (resampleParticle res apic dt s p).apic_b = 0) ∧
    (apic = true →
      (resampleParticle res apic dt s p).v = interpVel res s p.pos) ∧
    (apic = false →
      (resampleParticle res apic dt s p).v =
        p.v + (interpVel res s p.pos - interpVelBackup res s p.pos)) := by
  refine ⟨?_, ?_, ?_⟩
  · intro h
    have hcond : (region res p.pos).card ≠ 64 ∨ apic = false := by
      rcases h with h | h
      · exact Or.inl (Nat.ne_of_lt h)
      · exact Or.inr h
    show (if (region res p.pos).card ≠ 64 ∨ apic = false then 0
      else apicAccum res s p.pos) = 0
    rw [if_pos hcond]
  · intro h
    subst h
    show ((1 : K) - if true = true then 0 else 1) • interpVel res s p.pos +
      (if true = true then (0 : K) else 1) •
        (interpVel res s p.pos - interpVelBackup res s p.pos + p.v) = interpVel res s p.pos
    rw [if_pos rfl, sub_zero, one_smul, zero_smul, add_zero]
  · intro h
    subst h
    show ((1 : K) - if false = true then 0 else 1) • interpVel res s p.pos +
      (if false = true then (0 : K) else 1) •
        (interpVel res s p.pos - interpVelBackup res s p.pos + p.v) =
      p.v + (interpVel res s p.pos - interpVelBackup res s p.pos)
    rw [if_neg (by simp), sub_self, zero_smul, one_smul, zero_add]
    abel

theorem c3_resample_rules_witness :
    (resampleParticle (4, 4, 4) false 1 testStateQ testParticleQ).v =
      testParticleQ.v +
        (interpVel (4, 4, 4) testStateQ testParticleQ.pos -
          interpVelBackup (4, 4, 4) testStateQ testParticleQ.pos) :=
  (c3_resample_rules (4, 4, 4) false 1 testStateQ testParticleQ).2.2 rfl

/-- C1: `substep` performs, in order, rasterize → grid velocity backup → external
gravity force → deformation force → grid boundary conditions → resample → position
advection with clamping and plasticity → particle collision resolution, and advances
`current_t` by `delta_t` unconditionally; with an empty particle collection nothing but
the clock changes. -/
theorem c1_substep_order (res : Idx) (env : Env K) (gravity : Vec3 K) (apic : Bool)
    (s : SimState K) (dt : K) :
    (s.particles = [] →
      substep res env gravity apic s dt = { s with current_t := s.current_t + dt }) ∧
    (s.particles ≠ [] →
      substep res env gravity apic s dt =
        (let s8 := particleCollisionResolution env s.current_t
          (advectAndPlasticity res env dt
            (resample res apic dt
              (gridApplyBoundaryConditions res env s.current_t
                (applyDeformationForce res env dt
                  (gridApplyExternalForce gravity dt
                    (gridBackupVelocity (rasterize res s)))))));
        { s8 with current_t := s8.current_t + dt })) ∧
    (substep res env gravity apic s dt).current_t = s.current_t + dt := by
  refine ⟨?_, ?_, ?_⟩
  · intro h
    rw [substep]
    rw [List.isEmpty_iff.mpr h]
    rfl
  · intro h
    rw [substep]
    rw [List.isEmpty_eq_false.mpr h]
    rfl
  · cases hE : s.particles.isEmpty
    · rw [substep, hE]
      rfl
    · rw [substep, hE]
      rfl

theorem c1_substep_order_witness :
    substep (4, 4, 4) envQ 0 true emptyStateQ 1 =
      { emptyStateQ with current_t := emptyStateQ.current_t + 1 } :=
  (c1_substep_order (4, 4, 4) envQ 0 true emptyStateQ 1).1 rfl

theorem mem_newParticleList_mass {res : Idx} {c : Config K} {counts : Idx → ℕ}
    {posOf : Idx → ℕ → Vec3 K} {p : Particle K}
    (hp : p ∈ newParticleList res c counts posOf) : p.mass = 1 := by
  simp only [newParticleList, List.mem_flatMap, List.mem_map, List.mem_range] at hp
  obtain ⟨i, -, j, -, k, -, l, -, rfl⟩ := hp
  rfl

/-- C10: every particle created by `add_particles` has mass exactly 1, for both material
variants and every configuration, so the total created particle mass equals the number of
created particles. -/
theorem c10_mass_one (res : Idx) (c : Config K) (counts : Idx → ℕ)
    (posOf : Idx → ℕ → Vec3 K) (s : SimState K) :
    (∀ p ∈ (addParticles res c counts posOf s).particles,
      p ∈ s.particles ∨ p.mass = 1) ∧
    ((newParticleList res c counts posOf).map fun p => p.mass).sum =
      ((newParticleList res c counts posOf (K := K)).length : K) := by
  constructor
  · intro p hp
    rw [addParticles] at hp
    rcases List.mem_append.mp hp with h | h
    · exact Or.inl h
    · exact Or.inr (mem_newParticleList_mass h)
  · rw [List.map_congr_left fun p hp => mem_newParticleList_mass (p := p) hp]
    rw [show (fun _ : Particle K => (1 : K)) = Function.const (Particle K) (1 : K) from rfl,
      List.map_const]
    rw [List.sum_replicate, nsmul_eq_mul, mul_one]

theorem c10_mass_one_witness :
    newParticle configQ (fun _ => (0 : ℚ)) ∈ emptyStateQ.particles ∨
      (newParticle configQ (fun _ => (0 : ℚ))).mass = 1 :=
  (c10_mass_one (1, 1, 1) configQ (fun _ => 1) (fun _ _ => fun _ => 0) emptyStateQ).1
    (newParticle configQ (fun _ => (0 : ℚ))) (by
      rw [addParticles]
      refine List.mem_append.mpr (Or.inr ?_)
      show newParticle configQ (fun _ => (0 : ℚ)) ∈
        newParticleList (1, 1, 1) configQ (fun _ => 1) (fun _ _ => fun _ => 0)
      simp [newParticleList, List.range_succ])

theorem c7_zero_mass_safe_witness :
    (rasterize (4, 4, 4) testStateQ).grid_velocity (0, 0, 0) = 0 :=
  (c7_zero_mass_safe (4, 4, 4) envQ 1 testStateQ (0, 0, 0) (by
    intro p hp
    rw [testStateQ, List.mem_singleton] at hp
    subst hp
    norm_num [testParticleQ])).1 (by
      show rasterizeMass (4, 4, 4) testStateQ (0, 0, 0) = 0
      rw [rasterizeMass, testStateQ]
      show (if ((0, 0, 0) : Idx) ∈ region (4, 4, 4) testParticleQ.pos then
        w3 (idxVec (0, 0, 0) - testParticleQ.pos) * testParticleQ.mass else 0) + 0 = 0
      rw [if_neg (by decide), zero_add])

end MPM3
